import Mathlib

/-!
Verification of the PlayLMS progress/gamification core.

Shallow embedding of the backend logic of the PlayLMS repository:
  - backend/src/services/youtubeService.js : duration codec, playlist paging
  - backend/src/models/User.js             : XP/level, account streak, Course model
  - backend/src/models/Progress.js         : per-course progress aggregate
  - backend/src/routes/progress.js         : watch route orchestration

JavaScript numbers are modelled as Nat (all quantities involved are
non-negative integers) or Int (millisecond timestamps, so that clock
differences may be negative).  Math.round of an exact non-negative
rational a / b is modelled as (2a + b) / (2b) in Nat arithmetic, which is
floor(a / b + 1 / 2).  Math.floor of an Int ratio is Int.fdiv.
Timestamps produced by new Date() are threaded as explicit parameters.
-/

namespace PlayLMS

/-! ## Shared numeric helpers -/

/-- Math.round (a / b) for non-negative numerator a and positive
denominator b, i.e. floor(a / b + 1 / 2). -/
def jsRoundDiv (a b : Nat) : Nat := (2 * a + b) / (2 * b)

/-! ## Duration codec (backend/src/services/youtubeService.js) -/

/-- parseInt applied to a captured digit run: base-10 value of a digit
string. -/
def natOfDigits (ds : List Char) : Nat :=
  ds.foldl (fun a c => a * 10 + (c.toNat - 48)) 0

/-- One optional regex group (\d+X)? of parseDuration, at the current
position of the subject: it matches exactly when a non-empty digit run is
followed immediately by the letter, in which case it consumes the run and
the letter and captures the run; otherwise it matches the empty string and
consumes nothing.  Returns the parseInt value of the capture (0 when the
group did not participate) and the rest of the subject. -/
def matchGroup (letter : Char) (cs : List Char) : Nat × List Char :=
  let run := cs.takeWhile (fun c => c.isDigit)
  match cs.dropWhile (fun c => c.isDigit) with
  | [] => (0, cs)
  | c :: rest =>
    if run = [] then (0, cs)
    else if c = letter then (natOfDigits run, rest)
    else (0, cs)

/-- The body of parseDuration after the literal PT has matched: the three
optional groups (\d+H)?(\d+M)?(\d+S)? in sequence, then
hours * 3600 + minutes * 60 + seconds.  Characters after the last
participating group are ignored, as the regex is unanchored. -/
def pdAfterPT (cs : List Char) : Nat :=
  (matchGroup 'H' cs).1 * 3600 +
    (matchGroup 'M' (matchGroup 'H' cs).2).1 * 60 +
    (matchGroup 'S' (matchGroup 'M' (matchGroup 'H' cs).2).2).1

/-- parseDuration(duration): duration.match(/PT(\d+H)?(\d+M)?(\d+S)?/)
finds the leftmost occurrence of the literal PT (every group being
optional, the match succeeds there unconditionally); none models the
TypeError thrown by match[1] when the subject has no PT occurrence and
match is null. -/
def parseDuration : List Char → Option Nat
  | [] => none
  | c :: cs =>
    if c = 'P' ∧ cs.head? = some 'T' then some (pdAfterPT cs.tail)
    else parseDuration cs

/-- parseDuration on a String subject. -/
def parseDurationS (s : String) : Option Nat := parseDuration s.data

/-- String.prototype.padStart(2, the digit zero). -/
def padStart2 (s : String) : String :=
  ⟨List.replicate (2 - s.length) '0' ++ s.data⟩

/-- formatDuration(seconds): hours = floor(s / 3600),
minutes = floor((s mod 3600) / 60), secs = s mod 60; rendered
H:MM:SS when hours is positive, else M:SS. -/
def formatDuration (seconds : Nat) : String :=
  let hours := seconds / 3600
  let minutes := seconds % 3600 / 60
  let secs := seconds % 60
  if hours > 0 then
    Nat.repr hours ++ ":" ++ padStart2 (Nat.repr minutes) ++ ":" ++ padStart2 (Nat.repr secs)
  else
    Nat.repr minutes ++ ":" ++ padStart2 (Nat.repr secs)

/-- Modelled from the spec: the equivalent clock display of a seconds
value, H:MM:SS when the value is at least one hour and M:SS otherwise,
each component truncated to whole units. -/
def specClockDisplay (n : Nat) : String :=
  if 3600 ≤ n then
    Nat.repr (n / 3600) ++ ":" ++ padStart2 (Nat.repr (n % 3600 / 60)) ++ ":" ++ padStart2 (Nat.repr (n % 60))
  else
    Nat.repr (n / 60) ++ ":" ++ padStart2 (Nat.repr (n % 60))

/-- Does the subject contain the literal PT (i.e. does the unanchored
regex of parseDuration match anywhere)? -/
def hasPT : List Char → Bool
  | [] => false
  | c :: cs =>
    if c = 'P' ∧ cs.head? = some 'T' then true
    else hasPT cs

/-- An optional duration component: none when absent from the token,
some ds for a component with digit run ds. -/
def optPart (o : Option (List Char)) (letter : Char) : List Char :=
  match o with
  | none => []
  | some ds => ds ++ [letter]

/-- The parseInt value contributed by an optional component. -/
def optVal (o : Option (List Char)) : Nat :=
  match o with
  | none => 0
  | some ds => natOfDigits ds

/-- A well-formed optional component: if present, its digit run is
non-empty and all digits. -/
def goodOpt (o : Option (List Char)) : Prop :=
  match o with
  | none => True
  | some ds => ds ≠ [] ∧ ds.all (fun c => c.isDigit) = true

/-- A non-empty all-digit run. -/
def goodRun (ds : List Char) : Prop :=
  ds ≠ [] ∧ ds.all (fun c => c.isDigit) = true

/-- A duration token of shape PT[nH][nM][nS] with the given subset of
components present. -/
def mkToken (oh om os : Option (List Char)) : List Char :=
  'P' :: 'T' :: (optPart oh 'H' ++ (optPart om 'M' ++ optPart os 'S'))

/-! ## Playlist ingestion (backend/src/services/youtubeService.js,
getPlaylistVideos / getVideoDetails) -/

/-- One item of a playlistItems.list response page: contentDetails.videoId
plus snippet fields (only those the combine step reads are kept, with
position the upstream ordinal). -/
structure PlaylistItem where
  videoId : String
  title : String
  position : Nat
deriving Repr, DecidableEq

/-- One element of the videos.list join produced by getVideoDetails:
id, parsed duration and statistics. -/
structure VideoDetail where
  id : String
  duration : Nat
  viewCount : Nat
  likeCount : Nat
deriving Repr, DecidableEq

/-- One combined video descriptor pushed onto the result list. -/
structure Video where
  id : String
  title : String
  position : Nat
  duration : Nat
  viewCount : Nat
  likeCount : Nat
deriving Repr, DecidableEq

/-- The per-item combine step: videoDetails.find(v => v.id === item id),
missing statistics defaulting to 0. -/
def combineVideo (details : List VideoDetail) (item : PlaylistItem) : Video :=
  let d := details.find? (fun v => v.id == item.videoId)
  { id := item.videoId
    title := item.title
    position := item.position
    duration := (d.map (fun v => v.duration)).getD 0
    viewCount := (d.map (fun v => v.viewCount)).getD 0
    likeCount := (d.map (fun v => v.likeCount)).getD 0 }

/-- One page of the loop body: the batched getVideoDetails call for the
page followed by the per-item combine. detailsOf is the external
videos.list collaborator, keyed by the batch of ids. -/
def processPage (detailsOf : List String → List VideoDetail) (page : List PlaylistItem) : List Video :=
  page.map (combineVideo (detailsOf (page.map (fun i => i.videoId))))

/-- The do/while paging loop of getPlaylistVideos.  The catalog is the
sequence of playlistItems.list response pages; a nextPageToken is present
exactly when further pages remain.  Each iteration appends the combined
page, then truncates to maxResults and breaks as soon as the accumulated
count reaches maxResults.  Also returns the number of pages fetched. -/
def fetchPages (detailsOf : List String → List VideoDetail) (maxResults : Nat) :
    List (List PlaylistItem) → List Video → List Video × Nat
  | [], acc => (acc, 0)
  | page :: rest, acc =>
    if maxResults ≤ (acc ++ processPage detailsOf page).length then
      ((acc ++ processPage detailsOf page).take maxResults, 1)
    else if rest.isEmpty then (acc ++ processPage detailsOf page, 1)
    else
      ((fetchPages detailsOf maxResults rest (acc ++ processPage detailsOf page)).1,
       (fetchPages detailsOf maxResults rest (acc ++ processPage detailsOf page)).2 + 1)

/-- getPlaylistVideos(playlistId, maxResults): the videos returned by the
paging loop, starting from an empty accumulator. -/
def getPlaylistVideos (detailsOf : List String → List VideoDetail)
    (pages : List (List PlaylistItem)) (maxResults : Nat) : List Video :=
  (fetchPages detailsOf maxResults pages []).1

/-- Number of catalog requests issued by getPlaylistVideos. -/
def pagesFetched (detailsOf : List String → List VideoDetail)
    (pages : List (List PlaylistItem)) (maxResults : Nat) : Nat :=
  (fetchPages detailsOf maxResults pages []).2

/-! ## Gamification: XP, level, streak (backend/src/models/User.js) -/

/-- The gamification state of a learner account. -/
structure UserAcct where
  xp : Nat
  level : Nat
deriving Repr, DecidableEq

/-- The payload returned by addXP. -/
structure XPResult where
  leveledUp : Bool
  newLevel : Option Nat
  xpGained : Nat
deriving Repr, DecidableEq

/-- addXP(amount): xp += amount; newLevel = floor(sqrt(xp / 100)) + 1
(Nat.sqrt (xp / 100) equals the floor of the real square root of
xp / 100, see floor_sqrt_div below); the stored level is raised exactly
when newLevel exceeds it. -/
def addXP (amount : Nat) (u : UserAcct) : UserAcct × XPResult :=
  let xp := u.xp + amount
  let newLevel := Nat.sqrt (xp / 100) + 1
  if u.level < newLevel then
    ({ xp := xp, level := newLevel },
     { leveledUp := true, newLevel := some newLevel, xpGained := amount })
  else
    ({ xp := xp, level := u.level },
     { leveledUp := false, newLevel := none, xpGained := amount })

/-- The streak triple shared by User.updateStreak (User.js) and
Progress.updateStreak (Progress.js), whose bodies are identical. -/
structure Streak where
  current : Nat
  longest : Nat
  lastActivity : Int
deriving Repr, DecidableEq

/-- Milliseconds per day, the divisor 1000 * 60 * 60 * 24. -/
def msPerDay : Int := 86400000

/-- Math.floor((now - lastActivity) / msPerDay): the whole-day difference
between the call time and the stored last-activity timestamp. -/
def dayDiff (now last : Int) : Int := (now - last).fdiv msPerDay

/-- updateStreak(): exactly one elapsed day increments the current streak
(raising the longest when exceeded), more than one day resets it to 1,
otherwise the counters are untouched; lastActivity is unconditionally
overwritten with now. -/
def updateStreak (now : Int) (s : Streak) : Streak :=
  let days := dayDiff now s.lastActivity
  if days = 1 then
    let cur := s.current + 1
    { current := cur
      longest := if s.longest < cur then cur else s.longest
      lastActivity := now }
  else if 1 < days then
    { s with current := 1, lastActivity := now }
  else
    { s with lastActivity := now }

/-- A sequence of updateStreak calls at the given times. -/
def runStreakCalls (times : List Int) (s : Streak) : Streak :=
  times.foldl (fun t now => updateStreak now t) s

/-! ## Progress aggregate (backend/src/models/Progress.js) -/

/-- A timestamped note inside a module sub-record. -/
structure Note where
  content : String
  timestamp : Nat
  createdAt : Nat
  updatedAt : Nat
deriving Repr, DecidableEq

/-- A timestamped bookmark inside a module sub-record. -/
structure Bookmark where
  timestamp : Nat
  title : String
  createdAt : Nat
deriving Repr, DecidableEq

/-- One element of the moduleProgress array. -/
structure ModuleProgress where
  moduleOrder : Nat
  isCompleted : Bool
  watchTime : Nat
  lastWatched : Nat
  completedAt : Option Nat
  notes : List Note
  bookmarks : List Bookmark
deriving Repr, DecidableEq

/-- The Progress document for one (user, course) pair (fields the
embedded methods read or write). -/
structure Progress where
  moduleProgress : List ModuleProgress
  overallProgress : Nat
  totalWatchTime : Nat
  completedModules : Nat
  isCompleted : Bool
  completedAt : Option Nat
  lastAccessed : Nat
  currentStreak : Nat
  longestStreak : Nat
  lastActivityDate : Int
deriving Repr, DecidableEq

/-- The Progress document created at enrollment (schema defaults only). -/
def initProgress (now : Nat) : Progress :=
  { moduleProgress := []
    overallProgress := 0
    totalWatchTime := 0
    completedModules := 0
    isCompleted := false
    completedAt := none
    lastAccessed := now
    currentStreak := 0
    longestStreak := 0
    lastActivityDate := (now : Int) }

/-- The fresh sub-record pushed on first contact with a module. -/
def newModuleProgress (now : Nat) (moduleOrder : Nat) : ModuleProgress :=
  { moduleOrder := moduleOrder
    isCompleted := false
    watchTime := 0
    lastWatched := now
    completedAt := none
    notes := []
    bookmarks := [] }

/-- In-place mutation of the element found by Array.prototype.find: the
first element with the given moduleOrder is replaced by its image. -/
def updateFirst (o : Nat) (f : ModuleProgress → ModuleProgress) :
    List ModuleProgress → List ModuleProgress
  | [] => []
  | mp :: rest =>
    if mp.moduleOrder == o then f mp :: rest else mp :: updateFirst o f rest

/-- updateOverallProgress(): with no sub-records the percentage is reset
to 0 and the method returns early; otherwise
overallProgress = Math.round((completed count / sub-record count) * 100),
the completion flag flips one-way at 100, and
totalWatchTime = Math.round(total seconds / 60). -/
def updateOverallProgress (now : Nat) (p : Progress) : Progress :=
  if p.moduleProgress.length = 0 then
    { p with overallProgress := 0 }
  else
    let completed := (p.moduleProgress.filter (fun mp => mp.isCompleted)).length
    let pct := jsRoundDiv (completed * 100) p.moduleProgress.length
    let p1 := { p with overallProgress := pct }
    let p2 :=
      if 100 ≤ pct && !p1.isCompleted then
        { p1 with isCompleted := true, completedAt := some now }
      else p1
    { p2 with
      totalWatchTime :=
        jsRoundDiv (p2.moduleProgress.foldl (fun t mp => t + mp.watchTime) 0) 60 }

/-- The in-place mutation applied to the target sub-record by
updateModuleProgress: accumulate the watch-time delta, touch lastWatched,
and perform the one-way completion transition when the flag is set and the
module was not yet completed. -/
def watchStep (now : Nat) (watchTime : Nat) (isCompleted : Bool)
    (mp : ModuleProgress) : ModuleProgress :=
  let mp1 := { mp with watchTime := mp.watchTime + watchTime, lastWatched := now }
  if isCompleted && !mp1.isCompleted then
    { mp1 with isCompleted := true, completedAt := some now }
  else mp1

/-- updateModuleProgress(moduleOrder, watchTime, isCompleted): lazily
initialises the module sub-record, accumulates watch time, performs the
one-way completion transition (incrementing completedModules exactly when
the module was not yet completed), touches lastAccessed and recomputes the
roll-ups. -/
def updateModuleProgress (now : Nat) (moduleOrder : Nat) (watchTime : Nat)
    (isCompleted : Bool) (p : Progress) : Progress :=
  let p0 :=
    if p.moduleProgress.any (fun mp => mp.moduleOrder == moduleOrder) then p
    else { p with moduleProgress := p.moduleProgress ++ [newModuleProgress now moduleOrder] }
  let wasCompleted :=
    ((p0.moduleProgress.find? (fun mp => mp.moduleOrder == moduleOrder)).map
      (fun mp => mp.isCompleted)).getD false
  let p1 :=
    { p0 with
      moduleProgress := updateFirst moduleOrder (watchStep now watchTime isCompleted)
        p0.moduleProgress
      completedModules :=
        if isCompleted && !wasCompleted then p0.completedModules + 1
        else p0.completedModules
      lastAccessed := now }
  updateOverallProgress now p1

/-- One watch-route invocation: order, delta, completedFlag, call time. -/
structure WatchCall where
  now : Nat
  moduleOrder : Nat
  delta : Nat
  completed : Bool
deriving Repr, DecidableEq

/-- A sequence of recordWatch operations applied to a Progress record. -/
def runWatchCalls (calls : List WatchCall) (p : Progress) : Progress :=
  calls.foldl (fun q c => updateModuleProgress c.now c.moduleOrder c.delta c.completed q) p

/-- The module sub-record currently held for an order, if any. -/
def findModule (p : Progress) (o : Nat) : Option ModuleProgress :=
  p.moduleProgress.find? (fun mp => mp.moduleOrder == o)

/-- Cumulative watch time recorded for a module (0 when the sub-record
was never initialised). -/
def watchTimeOf (p : Progress) (o : Nat) : Nat :=
  ((findModule p o).map (fun mp => mp.watchTime)).getD 0

/-- Whether a module is recorded as completed. -/
def moduleCompleted (p : Progress) (o : Nat) : Bool :=
  ((findModule p o).map (fun mp => mp.isCompleted)).getD false

/-- The completion stamp of a module, if any. -/
def moduleCompletedAt (p : Progress) (o : Nat) : Option Nat :=
  (findModule p o).bind (fun mp => mp.completedAt)

/-- The notes of a module sub-record ([] when never initialised). -/
def notesOf (p : Progress) (o : Nat) : List Note :=
  ((findModule p o).map (fun mp => mp.notes)).getD []

/-- The bookmarks of a module sub-record ([] when never initialised). -/
def bookmarksOf (p : Progress) (o : Nat) : List Bookmark :=
  ((findModule p o).map (fun mp => mp.bookmarks)).getD []

/-! ## Course enrollment list (backend/src/models/User.js, courseSchema) -/

/-- One element of the enrolledUsers array of a Course. -/
structure Enrollment where
  userId : Nat
  enrolledAt : Nat
  completedModules : List Nat
  lastAccessed : Nat
  progress : Nat
deriving Repr, DecidableEq

/-- The Course fields read or written by the enrollment methods. -/
structure Course where
  totalModules : Nat
  enrolledUsers : List Enrollment
  totalEnrollments : Nat
  totalCompletions : Nat
deriving Repr, DecidableEq

/-- In-place mutation of the enrollment found by find: the first
enrollment of the user is replaced by its image. -/
def updateFirstEnrollment (userId : Nat) (f : Enrollment → Enrollment) :
    List Enrollment → List Enrollment
  | [] => []
  | e :: rest =>
    if e.userId == userId then f e :: rest else e :: updateFirstEnrollment userId f rest

/-- enrollUser(userId): pushes a fresh enrollment unless one exists. -/
def enrollUser (now : Nat) (userId : Nat) (c : Course) : Course × Bool :=
  if c.enrolledUsers.any (fun e => e.userId == userId) then (c, false)
  else
    ({ c with
        enrolledUsers := c.enrolledUsers ++
          [{ userId := userId, enrolledAt := now, completedModules := [],
             lastAccessed := now, progress := 0 }]
        totalEnrollments := c.totalEnrollments + 1 },
     true)

/-- completeModule(userId, moduleOrder): none models the thrown error for
a user with no enrollment; otherwise, when the order is not yet in the
completed list it is pushed (no range check against totalModules),
progress = Math.round((completed count / totalModules) * 100) is
recomputed, and totalCompletions is bumped when that reaches 100. -/
def completeModule (now : Nat) (userId moduleOrder : Nat) (c : Course) :
    Option (Course × Bool) :=
  match c.enrolledUsers.find? (fun e => e.userId == userId) with
  | none => none
  | some e =>
    if moduleOrder ∈ e.completedModules then some (c, false)
    else
      let e2 :=
        { e with
          completedModules := e.completedModules ++ [moduleOrder]
          progress := jsRoundDiv ((e.completedModules.length + 1) * 100) c.totalModules
          lastAccessed := now }
      let c2 :=
        { c with
          enrolledUsers := updateFirstEnrollment userId (fun _ => e2) c.enrolledUsers
          totalCompletions :=
            if 100 ≤ e2.progress then c.totalCompletions + 1 else c.totalCompletions }
      some (c2, true)

/-- One completeModule invocation. -/
structure CompleteCall where
  now : Nat
  userId : Nat
  moduleOrder : Nat
deriving Repr, DecidableEq

/-- A sequence of completeModule operations; a throwing call leaves the
document unchanged (the route aborts before saving). -/
def runCompleteCalls (calls : List CompleteCall) (c : Course) : Course :=
  calls.foldl
    (fun c call =>
      match completeModule call.now call.userId call.moduleOrder c with
      | none => c
      | some out => out.1)
    c

/-! ## Duration codec lemmas -/

theorem takeWhile_digits (ds : List Char) (c : Char) (cs : List Char)
    (hds : ds.all (fun x => x.isDigit) = true) (hc : c.isDigit = false) :
    (ds ++ c :: cs).takeWhile (fun x => x.isDigit) = ds := by
  induction ds with
  | nil => simp [List.takeWhile_cons, hc]
  | cons d ds ih =>
    simp only [List.all_cons, Bool.and_eq_true] at hds
    simp [List.takeWhile_cons, hds.1, ih hds.2]

theorem dropWhile_digits (ds : List Char) (c : Char) (cs : List Char)
    (hds : ds.all (fun x => x.isDigit) = true) (hc : c.isDigit = false) :
    (ds ++ c :: cs).dropWhile (fun x => x.isDigit) = c :: cs := by
  induction ds with
  | nil => simp [List.dropWhile_cons, hc]
  | cons d ds ih =>
    simp only [List.all_cons, Bool.and_eq_true] at hds
    simp [List.dropWhile_cons, hds.1, ih hds.2]

theorem matchGroup_hit (letter : Char) (hl : letter.isDigit = false)
    (ds : List Char) (hne : ds ≠ []) (hds : ds.all (fun x => x.isDigit) = true)
    (rest : List Char) :
    matchGroup letter (ds ++ letter :: rest) = (natOfDigits ds, rest) := by
  unfold matchGroup
  rw [takeWhile_digits ds letter rest hds hl, dropWhile_digits ds letter rest hds hl]
  simp [hne]

theorem matchGroup_skip (letter : Char) (cs : List Char)
    (h : (cs.dropWhile (fun x => x.isDigit)).head? ≠ some letter) :
    matchGroup letter cs = (0, cs) := by
  unfold matchGroup
  cases hdrop : cs.dropWhile (fun x => x.isDigit) with
  | nil => rfl
  | cons c rest =>
    rw [hdrop] at h
    simp only [List.head?_cons, ne_eq, Option.some.injEq] at h
    simp [h]

theorem matchGroup_opt (letter : Char) (hl : letter.isDigit = false)
    (o : Option (List Char)) (ho : goodOpt o) (tail : List Char)
    (htail : (tail.dropWhile (fun x => x.isDigit)).head? ≠ some letter) :
    matchGroup letter (optPart o letter ++ tail) = (optVal o, tail) := by
  cases o with
  | none => simpa [optPart, optVal] using matchGroup_skip letter tail htail
  | some ds =>
    rcases ho with ⟨hne, hds⟩
    have hsh : optPart (some ds) letter ++ tail = ds ++ letter :: tail := by
      simp [optPart]
    rw [hsh, matchGroup_hit letter hl ds hne hds tail]
    rfl

theorem pdAfterPT_full (dh dm ds rest : List Char)
    (hh : goodRun dh) (hm : goodRun dm) (hs : goodRun ds) :
    pdAfterPT (dh ++ 'H' :: (dm ++ 'M' :: (ds ++ 'S' :: rest))) =
      natOfDigits dh * 3600 + natOfDigits dm * 60 + natOfDigits ds := by
  have e1 := matchGroup_hit 'H' (by decide) dh hh.1 hh.2 (dm ++ 'M' :: (ds ++ 'S' :: rest))
  have e2 := matchGroup_hit 'M' (by decide) dm hm.1 hm.2 (ds ++ 'S' :: rest)
  have e3 := matchGroup_hit 'S' (by decide) ds hs.1 hs.2 rest
  simp only [pdAfterPT, e1, e2, e3]

theorem pdAfterPT_token (oh om os : Option (List Char))
    (h1 : goodOpt oh) (h2 : goodOpt om) (h3 : goodOpt os) :
    pdAfterPT (optPart oh 'H' ++ (optPart om 'M' ++ optPart os 'S')) =
      optVal oh * 3600 + optVal om * 60 + optVal os := by
  have hdropS : ((optPart os 'S').dropWhile (fun x => x.isDigit)).head? ≠ some 'M' := by
    cases os with
    | none => simp [optPart]
    | some ds =>
      rcases h3 with ⟨hne, hds⟩
      rw [show optPart (some ds) 'S' = ds ++ 'S' :: [] from by simp [optPart],
          dropWhile_digits ds 'S' [] hds (by decide)]
      simp
  have hdropMS : ((optPart om 'M' ++ optPart os 'S').dropWhile
      (fun x => x.isDigit)).head? ≠ some 'H' := by
    cases om with
    | some dm =>
      rcases h2 with ⟨hne, hds⟩
      rw [show optPart (some dm) 'M' ++ optPart os 'S' = dm ++ 'M' :: optPart os 'S'
            from by simp [optPart],
          dropWhile_digits dm 'M' _ hds (by decide)]
      simp
    | none =>
      rw [show (optPart none 'M' : List Char) = [] from rfl, List.nil_append]
      cases os with
      | none => simp [optPart]
      | some ds =>
        rcases h3 with ⟨hne, hds⟩
        rw [show optPart (some ds) 'S' = ds ++ 'S' :: [] from by simp [optPart],
            dropWhile_digits ds 'S' [] hds (by decide)]
        simp
  have e1 := matchGroup_opt 'H' (by decide) oh h1 _ hdropMS
  have e2 := matchGroup_opt 'M' (by decide) om h2 _ hdropS
  have e3 : matchGroup 'S' (optPart os 'S') = (optVal os, []) := by
    simpa using matchGroup_opt 'S' (by decide) os h3 [] (by simp)
  simp only [pdAfterPT, e1, e2, e3]

theorem parseDuration_PT (cs : List Char) :
    parseDuration ('P' :: 'T' :: cs) = some (pdAfterPT cs) := by
  simp [parseDuration]

theorem parseDuration_none_iff (cs : List Char) :
    parseDuration cs = none ↔ hasPT cs = false := by
  induction cs with
  | nil => simp [parseDuration, hasPT]
  | cons c cs ih =>
    by_cases h : c = 'P' ∧ cs.head? = some 'T'
    · simp [parseDuration, hasPT, h]
    · simp [parseDuration, hasPT, h, ih]

theorem formatDuration_eq_specClockDisplay (n : Nat) :
    formatDuration n = specClockDisplay n := by
  unfold formatDuration specClockDisplay
  by_cases h : 3600 ≤ n
  · have h2 : 0 < n / 3600 := Nat.div_pos h (by norm_num)
    simp [h, h2]
  · have h2 : n / 3600 = 0 := by omega
    have h3 : n % 3600 = n := by omega
    simp [h, h2, h3]

/-! ## Claim theorems: duration codec -/

/-- Claim C6: for every valid duration token of shape PT[nH][nM][nS] with
any subset of components present, parseDuration yields the component sum
hours * 3600 + minutes * 60 + seconds, and formatDuration renders every
seconds value as the equivalent clock display (H:MM:SS when at least one
hour, M:SS otherwise, truncating at each level); in particular PT1H5M30S
parses to 3930 which formats as 1:05:30, formatDuration 125 = 2:05 and
formatDuration 3661 = 1:01:01. -/
theorem c6_duration_roundtrip (oh om os : Option (List Char))
    (h1 : goodOpt oh) (h2 : goodOpt om) (h3 : goodOpt os) :
    parseDuration (mkToken oh om os) =
        some (optVal oh * 3600 + optVal om * 60 + optVal os)
    ∧ (∀ n : Nat, formatDuration n = specClockDisplay n)
    ∧ parseDurationS ("PT1H5M30S") = some 3930
    ∧ formatDuration 3930 = "1:05:30"
    ∧ formatDuration 125 = "2:05"
    ∧ formatDuration 3661 = "1:01:01" := by
  refine ⟨?_, fun n => formatDuration_eq_specClockDisplay n,
    by decide, by decide, by decide, by decide⟩
  simp only [mkToken]
  rw [parseDuration_PT, pdAfterPT_token oh om os h1 h2 h3]

/-- Witness for C6 at the token PT1H5M30S. -/
theorem c6_duration_roundtrip_witness :
    parseDuration (mkToken (some ['1']) (some ['5']) (some ['3', '0'])) =
        some (optVal (some ['1']) * 3600 + optVal (some ['5']) * 60 + optVal (some ['3', '0']))
    ∧ (∀ n : Nat, formatDuration n = specClockDisplay n)
    ∧ parseDurationS ("PT1H5M30S") = some 3930
    ∧ formatDuration 3930 = "1:05:30"
    ∧ formatDuration 125 = "2:05"
    ∧ formatDuration 3661 = "1:01:01" :=
  c6_duration_roundtrip (some ['1']) (some ['5']) (some ['3', '0'])
    ⟨by decide, by decide⟩ ⟨by decide, by decide⟩ ⟨by decide, by decide⟩

/-- Claim C7 counterexample: a token with no digits at all (PT) parses
successfully to 0 instead of failing, and a token with unexpected trailing
characters (PT1H5M30Sxyz) parses successfully to 3930 instead of failing. -/
theorem c7_parseDuration_counterexample :
    parseDurationS ("PT") = some 0 ∧ parseDurationS ("PT1H5M30Sxyz") = some 3930 := by
  decide

/-- Claim C7 (amended): parseDuration fails exactly when the token contains
no occurrence of the literal PT (the unanchored regex then yields a null
match and the code throws on it); a token containing PT never fails: with
no digits at all it parses to 0, and unexpected trailing characters after
the matched groups are ignored. -/
theorem c7_parseDuration_amended (cs dh dm ds rest : List Char)
    (hh : goodRun dh) (hm : goodRun dm) (hs : goodRun ds) :
    (parseDuration cs = none ↔ hasPT cs = false)
    ∧ parseDurationS ("PT") = some 0
    ∧ parseDuration ('P' :: 'T' :: (dh ++ 'H' :: (dm ++ 'M' :: (ds ++ 'S' :: rest)))) =
        some (natOfDigits dh * 3600 + natOfDigits dm * 60 + natOfDigits ds) := by
  refine ⟨parseDuration_none_iff cs, by decide, ?_⟩
  rw [parseDuration_PT, pdAfterPT_full dh dm ds rest hh hm hs]

/-- Witness for the amended C7 at the tokens abc and PT1H5M30Sxyz. -/
theorem c7_parseDuration_amended_witness :
    (parseDuration ("abc").data = none ↔ hasPT ("abc").data = false)
    ∧ parseDurationS ("PT") = some 0
    ∧ parseDuration ('P' :: 'T' :: (['1'] ++ 'H' :: (['5'] ++ 'M' :: (['3', '0'] ++ 'S' :: ("xyz").data)))) =
        some (natOfDigits ['1'] * 3600 + natOfDigits ['5'] * 60 + natOfDigits ['3', '0']) :=
  c7_parseDuration_amended ("abc").data ['1'] ['5'] ['3', '0'] ("xyz").data
    ⟨by decide, by decide⟩ ⟨by decide, by decide⟩ ⟨by decide, by decide⟩

/-! ## Streak lemmas and claim C5 -/

theorem updateStreak_longest_mono (s : Streak) (now : Int) :
    s.longest ≤ (updateStreak now s).longest := by
  unfold updateStreak
  dsimp only
  split
  · dsimp only; split <;> omega
  · split <;> (dsimp only; omega)

theorem runStreakCalls_longest_mono (times : List Int) (s : Streak) :
    s.longest ≤ (runStreakCalls times s).longest := by
  induction times generalizing s with
  | nil => simp [runStreakCalls]
  | cons t ts ih =>
    calc s.longest ≤ (updateStreak t s).longest := updateStreak_longest_mono s t
      _ ≤ _ := by simpa [runStreakCalls, List.foldl_cons] using ih (updateStreak t s)

/-- Claim C5: updateStreak diffs the call time against the most recent
stored lastActivityDate (which it unconditionally overwrites with now): a
whole-day difference of exactly 1 increments currentStreak and raises
longestStreak when exceeded, a difference greater than 1 resets
currentStreak to 1, a difference of 0 leaves both counters unchanged; and
over every call sequence longestStreak never decreases. -/
theorem c5_updateStreak_day_difference (s : Streak) (now : Int) :
    (updateStreak now s).lastActivity = now
    ∧ (dayDiff now s.lastActivity = 1 →
        (updateStreak now s).current = s.current + 1
        ∧ (updateStreak now s).longest = max s.longest (s.current + 1))
    ∧ (1 < dayDiff now s.lastActivity →
        (updateStreak now s).current = 1
        ∧ (updateStreak now s).longest = s.longest)
    ∧ (dayDiff now s.lastActivity = 0 →
        (updateStreak now s).current = s.current
        ∧ (updateStreak now s).longest = s.longest)
    ∧ s.longest ≤ (updateStreak now s).longest
    ∧ (∀ times : List Int, s.longest ≤ (runStreakCalls times s).longest) := by
  refine ⟨?_, ?_, ?_, ?_, updateStreak_longest_mono s now,
    fun times => runStreakCalls_longest_mono times s⟩
  · unfold updateStreak; dsimp only; split
    · rfl
    · split <;> rfl
  · intro h
    unfold updateStreak
    dsimp only
    rw [if_pos h]
    refine ⟨rfl, ?_⟩
    dsimp only
    split <;> omega
  · intro h
    have h1 : dayDiff now s.lastActivity ≠ 1 := by omega
    unfold updateStreak
    dsimp only
    rw [if_neg h1, if_pos h]
    exact ⟨rfl, rfl⟩
  · intro h
    have h1 : dayDiff now s.lastActivity ≠ 1 := by omega
    have h2 : ¬ (1 : Int) < dayDiff now s.lastActivity := by omega
    unfold updateStreak
    dsimp only
    rw [if_neg h1, if_neg h2]
    exact ⟨rfl, rfl⟩

/-- Witness for C5: a second call exactly one day later increments the
streak to 3 and raises the longest streak, a gap of more than one day
resets to 1, and a same-day call leaves the count unchanged. -/
theorem c5_updateStreak_day_difference_witness :
    (updateStreak 86400000 ⟨2, 2, 0⟩).current = 3
    ∧ (updateStreak 86400000 ⟨2, 2, 0⟩).longest = 3
    ∧ (updateStreak 172800001 ⟨4, 9, 0⟩).current = 1
    ∧ (updateStreak 1000 ⟨4, 9, 0⟩).current = 4 := by
  have h1 := (c5_updateStreak_day_difference ⟨2, 2, 0⟩ 86400000).2.1 (by decide)
  have h2 := (c5_updateStreak_day_difference ⟨4, 9, 0⟩ 172800001).2.2.1 (by decide)
  have h3 := (c5_updateStreak_day_difference ⟨4, 9, 0⟩ 1000).2.2.2.1 (by decide)
  exact ⟨h1.1, h1.2.trans (by decide), h2.1, h3.1⟩

/-! ## XP and level: claim C4 -/

/-- The floor of the real square root of n / k equals Nat.sqrt of the
natural quotient: the JavaScript Math.floor(Math.sqrt(xp / 100)) is
faithfully computed by Nat.sqrt (xp / 100). -/
theorem floor_sqrt_div (n k : Nat) (hk : 0 < k) :
    ⌊Real.sqrt ((n : ℝ) / (k : ℝ))⌋₊ = Nat.sqrt (n / k) := by
  have hk' : (0 : ℝ) < (k : ℝ) := by exact_mod_cast hk
  have hx : (0 : ℝ) ≤ (n : ℝ) / (k : ℝ) := by positivity
  have h1 : ((n / k : ℕ) : ℝ) ≤ (n : ℝ) / (k : ℝ) := Nat.cast_div_le
  have h2 : (n : ℝ) / (k : ℝ) < ((n / k : ℕ) : ℝ) + 1 := by
    rw [div_lt_iff₀ hk']
    have hd := Nat.div_add_mod n k
    have hm : n % k < k := Nat.mod_lt n hk
    have he : (n : ℝ) = (k : ℝ) * ((n / k : ℕ) : ℝ) + ((n % k : ℕ) : ℝ) := by
      exact_mod_cast hd.symm
    have hmr : ((n % k : ℕ) : ℝ) < (k : ℝ) := by exact_mod_cast hm
    nlinarith
  have hle : ((Nat.sqrt (n / k) : ℕ) : ℝ) ≤ Real.sqrt ((n : ℝ) / (k : ℝ)) := by
    rw [show ((Nat.sqrt (n / k) : ℕ) : ℝ) = Real.sqrt (((Nat.sqrt (n / k) : ℕ) : ℝ) ^ 2)
          from (Real.sqrt_sq (by positivity)).symm]
    apply Real.sqrt_le_sqrt
    have hq : (Nat.sqrt (n / k)) ^ 2 ≤ n / k := Nat.sqrt_le' (n / k)
    calc ((Nat.sqrt (n / k) : ℕ) : ℝ) ^ 2 = (((Nat.sqrt (n / k)) ^ 2 : ℕ) : ℝ) := by
          push_cast; ring
      _ ≤ ((n / k : ℕ) : ℝ) := by exact_mod_cast hq
      _ ≤ (n : ℝ) / (k : ℝ) := h1
  have hlt : Real.sqrt ((n : ℝ) / (k : ℝ)) < ((Nat.sqrt (n / k) : ℕ) : ℝ) + 1 := by
    rw [Real.sqrt_lt' (by positivity)]
    have hq : n / k < (Nat.sqrt (n / k) + 1) ^ 2 := by
      simpa [Nat.succ_eq_add_one] using Nat.lt_succ_sqrt' (n / k)
    have hcast : ((n / k : ℕ) : ℝ) + 1 ≤ (((Nat.sqrt (n / k) + 1) ^ 2 : ℕ) : ℝ) := by
      exact_mod_cast hq
    push_cast at hcast
    nlinarith
  rw [Nat.floor_eq_iff (Real.sqrt_nonneg _)]
  exact ⟨hle, hlt⟩

/-- Claim C4: addXP adds the amount to the experience total, recomputes
level = floor(sqrt(xp / 100)) + 1, updates the stored level and reports
leveledUp exactly when the recomputed level exceeds the stored one, so the
stored level never decreases; a cumulative total of 100 points yields
level 2 and a total of 99 stays at level 1. -/
theorem c4_addXP_level_formula (u : UserAcct) (amount : Nat) :
    (addXP amount u).1.xp = u.xp + amount
    ∧ (addXP amount u).1.level = max u.level (Nat.sqrt ((u.xp + amount) / 100) + 1)
    ∧ u.level ≤ (addXP amount u).1.level
    ∧ ((addXP amount u).2.leveledUp = true ↔
        u.level < Nat.sqrt ((u.xp + amount) / 100) + 1)
    ∧ Nat.sqrt ((u.xp + amount) / 100) =
        ⌊Real.sqrt (((u.xp + amount : ℕ) : ℝ) / 100)⌋₊
    ∧ (addXP 100 ⟨0, 1⟩).1.level = 2
    ∧ (addXP 99 ⟨0, 1⟩).1.level = 1 := by
  refine ⟨?_, ?_, ?_, ?_, ?_, by decide, by decide⟩
  · unfold addXP; dsimp only; split <;> rfl
  · unfold addXP; dsimp only; split <;> dsimp only <;> omega
  · unfold addXP; dsimp only; split <;> dsimp only <;> omega
  · unfold addXP; dsimp only; split <;> rename_i h <;> simp [h]
  · have h := floor_sqrt_div (u.xp + amount) 100 (by norm_num)
    rw [show ((100 : ℕ) : ℝ) = (100 : ℝ) from by norm_num] at h
    exact h.symm

/-! ## Progress aggregate lemmas -/

theorem watchStep_moduleOrder (now w : Nat) (flag : Bool) (mp : ModuleProgress) :
    (watchStep now w flag mp).moduleOrder = mp.moduleOrder := by
  unfold watchStep; dsimp only; split <;> rfl

theorem watchStep_watchTime (now w : Nat) (flag : Bool) (mp : ModuleProgress) :
    (watchStep now w flag mp).watchTime = mp.watchTime + w := by
  unfold watchStep; dsimp only; split <;> rfl

theorem watchStep_notes (now w : Nat) (flag : Bool) (mp : ModuleProgress) :
    (watchStep now w flag mp).notes = mp.notes := by
  unfold watchStep; dsimp only; split <;> rfl

theorem watchStep_bookmarks (now w : Nat) (flag : Bool) (mp : ModuleProgress) :
    (watchStep now w flag mp).bookmarks = mp.bookmarks := by
  unfold watchStep; dsimp only; split <;> rfl

theorem watchStep_isCompleted (now w : Nat) (flag : Bool) (mp : ModuleProgress) :
    (watchStep now w flag mp).isCompleted = (mp.isCompleted || flag) := by
  cases flag <;> cases h : mp.isCompleted <;> simp [watchStep, h]

theorem watchStep_completedAt (now w : Nat) (flag : Bool) (mp : ModuleProgress) :
    (watchStep now w flag mp).completedAt =
      (if mp.isCompleted then mp.completedAt
       else if flag then some now else mp.completedAt) := by
  cases flag <;> cases h : mp.isCompleted <;> simp [watchStep, h]

theorem find?_updateFirst_self (o : Nat) (f : ModuleProgress → ModuleProgress)
    (hf : ∀ mp, (f mp).moduleOrder = mp.moduleOrder) (l : List ModuleProgress) :
    (updateFirst o f l).find? (fun mp => mp.moduleOrder == o) =
      (l.find? (fun mp => mp.moduleOrder == o)).map f := by
  induction l with
  | nil => rfl
  | cons mp rest ih =>
    simp only [updateFirst]
    by_cases h : (mp.moduleOrder == o) = true
    · rw [if_pos h]
      simp [List.find?_cons, h, hf mp]
    · rw [if_neg h]
      have h2 : (mp.moduleOrder == o) = false := by simpa using h
      simp [List.find?_cons, h2, ih]

theorem find?_updateFirst_other (o o2 : Nat) (h : o2 ≠ o)
    (f : ModuleProgress → ModuleProgress)
    (hf : ∀ mp, (f mp).moduleOrder = mp.moduleOrder) (l : List ModuleProgress) :
    (updateFirst o f l).find? (fun mp => mp.moduleOrder == o2) =
      l.find? (fun mp => mp.moduleOrder == o2) := by
  induction l with
  | nil => rfl
  | cons mp rest ih =>
    simp only [updateFirst]
    by_cases hm : (mp.moduleOrder == o) = true
    · rw [if_pos hm]
      have hmo : mp.moduleOrder = o := by simpa using hm
      have hp1 : ((f mp).moduleOrder == o2) = false := by
        rw [hf mp, hmo, beq_eq_false_iff_ne]
        exact fun he => h he.symm
      have hp2 : (mp.moduleOrder == o2) = false := by
        rw [hmo, beq_eq_false_iff_ne]
        exact fun he => h he.symm
      simp [List.find?_cons, hp1, hp2]
    · rw [if_neg hm]
      by_cases hp : (mp.moduleOrder == o2) = true
      · simp [List.find?_cons, hp]
      · have hp2 : (mp.moduleOrder == o2) = false := by simpa using hp
        simp [List.find?_cons, hp2, ih]

theorem updateOverallProgress_moduleProgress (now : Nat) (p : Progress) :
    (updateOverallProgress now p).moduleProgress = p.moduleProgress := by
  unfold updateOverallProgress
  split
  · rfl
  · dsimp only; split <;> rfl

theorem updateOverallProgress_completedModules (now : Nat) (p : Progress) :
    (updateOverallProgress now p).completedModules = p.completedModules := by
  unfold updateOverallProgress
  split
  · rfl
  · dsimp only; split <;> rfl

theorem updateOverallProgress_lastAccessed (now : Nat) (p : Progress) :
    (updateOverallProgress now p).lastAccessed = p.lastAccessed := by
  unfold updateOverallProgress
  split
  · rfl
  · dsimp only; split <;> rfl

theorem updateOverallProgress_streak_fields (now : Nat) (p : Progress) :
    (updateOverallProgress now p).currentStreak = p.currentStreak
    ∧ (updateOverallProgress now p).longestStreak = p.longestStreak
    ∧ (updateOverallProgress now p).lastActivityDate = p.lastActivityDate := by
  unfold updateOverallProgress
  split
  · exact ⟨rfl, rfl, rfl⟩
  · dsimp only; split <;> exact ⟨rfl, rfl, rfl⟩

theorem updateOverallProgress_completed_sticky (now : Nat) (p : Progress)
    (h : p.isCompleted = true) :
    (updateOverallProgress now p).isCompleted = true
    ∧ (updateOverallProgress now p).completedAt = p.completedAt := by
  unfold updateOverallProgress
  split
  · exact ⟨h, rfl⟩
  · dsimp only
    rw [if_neg (by simp [h])]
    exact ⟨h, rfl⟩

theorem any_eq_isSome_find (l : List ModuleProgress) (o : Nat) :
    l.any (fun mp => mp.moduleOrder == o) =
      (l.find? (fun mp => mp.moduleOrder == o)).isSome := by
  cases h : l.find? (fun mp => mp.moduleOrder == o) with
  | none =>
    simp only [Option.isSome_none]
    rw [List.any_eq_false]
    exact List.find?_eq_none.mp h
  | some mp =>
    simp only [Option.isSome_some]
    rw [List.any_eq_true]
    have hp := List.find?_some h
    exact ⟨mp, List.mem_of_find?_eq_some h, hp⟩

theorem findModule_update_self (now o w : Nat) (flag : Bool) (p : Progress) :
    findModule (updateModuleProgress now o w flag p) o =
      some (watchStep now w flag ((findModule p o).getD (newModuleProgress now o))) := by
  unfold findModule updateModuleProgress
  dsimp only
  rw [updateOverallProgress_moduleProgress]
  dsimp only
  rw [any_eq_isSome_find]
  cases hfind : p.moduleProgress.find? (fun mp => mp.moduleOrder == o) with
  | some mp =>
    simp only [Option.isSome_some, if_true]
    rw [find?_updateFirst_self o _ (fun mp => watchStep_moduleOrder now w flag mp), hfind]
    rfl
  | none =>
    simp only [Option.isSome_none, Bool.false_eq_true, if_false]
    rw [find?_updateFirst_self o _ (fun mp => watchStep_moduleOrder now w flag mp)]
    rw [List.find?_append, hfind, Option.none_or, List.find?_singleton,
      if_pos (by simp [newModuleProgress])]
    rfl

theorem findModule_update_other (now o w : Nat) (flag : Bool) (p : Progress)
    (o2 : Nat) (h : o2 ≠ o) :
    findModule (updateModuleProgress now o w flag p) o2 = findModule p o2 := by
  unfold findModule updateModuleProgress
  dsimp only
  rw [updateOverallProgress_moduleProgress]
  dsimp only
  rw [any_eq_isSome_find]
  cases hfind : p.moduleProgress.find? (fun mp => mp.moduleOrder == o) with
  | some mp =>
    simp only [Option.isSome_some, if_true]
    rw [find?_updateFirst_other o o2 h _ (fun mp => watchStep_moduleOrder now w flag mp)]
  | none =>
    simp only [Option.isSome_none, Bool.false_eq_true, if_false]
    rw [find?_updateFirst_other o o2 h _ (fun mp => watchStep_moduleOrder now w flag mp)]
    rw [List.find?_append, List.find?_singleton,
      if_neg (by simp [newModuleProgress]; exact fun he => h he.symm), Option.or_none]

theorem updateModuleProgress_scalars (now o w : Nat) (flag : Bool) (p : Progress) :
    (updateModuleProgress now o w flag p).completedModules =
      (if flag && !(moduleCompleted p o) then p.completedModules + 1
       else p.completedModules)
    ∧ (updateModuleProgress now o w flag p).lastAccessed = now
    ∧ (updateModuleProgress now o w flag p).currentStreak = p.currentStreak
    ∧ (updateModuleProgress now o w flag p).longestStreak = p.longestStreak
    ∧ (updateModuleProgress now o w flag p).lastActivityDate = p.lastActivityDate := by
  unfold updateModuleProgress moduleCompleted findModule
  dsimp only
  rw [updateOverallProgress_completedModules]
  refine ⟨?_, ?_, ?_, ?_, ?_⟩
  · dsimp only
    rw [any_eq_isSome_find]
    cases hfind : p.moduleProgress.find? (fun mp => mp.moduleOrder == o) with
    | some mp => simp [hfind]
    | none =>
      simp only [Option.isSome_none, Bool.false_eq_true, if_false, hfind]
      rw [List.find?_append, hfind, Option.none_or, List.find?_singleton]
      simp [newModuleProgress]
  · rw [updateOverallProgress_lastAccessed]
  · rw [(updateOverallProgress_streak_fields now _).1]
    dsimp only
    split <;> rfl
  · rw [(updateOverallProgress_streak_fields now _).2.1]
    dsimp only
    split <;> rfl
  · rw [(updateOverallProgress_streak_fields now _).2.2]
    dsimp only
    split <;> rfl

theorem updateModuleProgress_sticky (now o w : Nat) (flag : Bool) (p : Progress)
    (h : p.isCompleted = true) :
    (updateModuleProgress now o w flag p).isCompleted = true
    ∧ (updateModuleProgress now o w flag p).completedAt = p.completedAt := by
  unfold updateModuleProgress
  dsimp only
  split
  · exact updateOverallProgress_completed_sticky now _ h
  · exact updateOverallProgress_completed_sticky now _ h

theorem watchTimeOf_update_self (now o w : Nat) (flag : Bool) (p : Progress) :
    watchTimeOf (updateModuleProgress now o w flag p) o = watchTimeOf p o + w := by
  unfold watchTimeOf
  rw [findModule_update_self]
  cases hfind : findModule p o with
  | none => simp [hfind, watchStep_watchTime, newModuleProgress]
  | some mp => simp [hfind, watchStep_watchTime]

theorem watchTimeOf_update_other (now o w : Nat) (flag : Bool) (p : Progress)
    (o2 : Nat) (h : o2 ≠ o) :
    watchTimeOf (updateModuleProgress now o w flag p) o2 = watchTimeOf p o2 := by
  unfold watchTimeOf
  rw [findModule_update_other now o w flag p o2 h]

theorem moduleCompleted_update_self (now o w : Nat) (flag : Bool) (p : Progress) :
    moduleCompleted (updateModuleProgress now o w flag p) o =
      (moduleCompleted p o || flag) := by
  unfold moduleCompleted
  rw [findModule_update_self]
  cases hfind : findModule p o with
  | none => simp [hfind, watchStep_isCompleted, newModuleProgress]
  | some mp => simp [hfind, watchStep_isCompleted]

theorem moduleCompletedAt_update_self (now o w : Nat) (flag : Bool) (p : Progress) :
    moduleCompletedAt (updateModuleProgress now o w flag p) o =
      (if moduleCompleted p o then moduleCompletedAt p o
       else if flag then some now else moduleCompletedAt p o) := by
  unfold moduleCompletedAt moduleCompleted
  rw [findModule_update_self]
  cases hfind : findModule p o with
  | none =>
    cases flag <;> simp [hfind, watchStep_completedAt, newModuleProgress]
  | some mp =>
    cases hmp : mp.isCompleted <;> cases flag <;>
      simp [hfind, watchStep_completedAt, hmp]

theorem notesOf_update (now o w : Nat) (flag : Bool) (p : Progress) (o2 : Nat) :
    notesOf (updateModuleProgress now o w flag p) o2 = notesOf p o2 := by
  by_cases h : o2 = o
  · subst h
    unfold notesOf
    rw [findModule_update_self]
    cases hfind : findModule p o2 with
    | none => simp [hfind, watchStep_notes, newModuleProgress]
    | some mp => simp [hfind, watchStep_notes]
  · unfold notesOf
    rw [findModule_update_other now o w flag p o2 h]

theorem bookmarksOf_update (now o w : Nat) (flag : Bool) (p : Progress) (o2 : Nat) :
    bookmarksOf (updateModuleProgress now o w flag p) o2 = bookmarksOf p o2 := by
  by_cases h : o2 = o
  · subst h
    unfold bookmarksOf
    rw [findModule_update_self]
    cases hfind : findModule p o2 with
    | none => simp [hfind, watchStep_bookmarks, newModuleProgress]
    | some mp => simp [hfind, watchStep_bookmarks]
  · unfold bookmarksOf
    rw [findModule_update_other now o w flag p o2 h]

theorem moduleCompleted_update_false (now o w : Nat) (p : Progress) (o2 : Nat) :
    moduleCompleted (updateModuleProgress now o w false p) o2 = moduleCompleted p o2 := by
  by_cases h : o2 = o
  · subst h
    rw [moduleCompleted_update_self]
    simp
  · unfold moduleCompleted
    rw [findModule_update_other now o w false p o2 h]

theorem moduleCompletedAt_update_false (now o w : Nat) (p : Progress) (o2 : Nat) :
    moduleCompletedAt (updateModuleProgress now o w false p) o2 = moduleCompletedAt p o2 := by
  by_cases h : o2 = o
  · subst h
    rw [moduleCompletedAt_update_self]
    split <;> simp
  · unfold moduleCompletedAt
    rw [findModule_update_other now o w false p o2 h]

theorem watchTimeOf_runWatchCalls (calls : List WatchCall) (p : Progress) (o : Nat) :
    watchTimeOf (runWatchCalls calls p) o =
      watchTimeOf p o +
        ((calls.filter (fun c => c.moduleOrder == o)).map (fun c => c.delta)).sum := by
  induction calls generalizing p with
  | nil => simp [runWatchCalls]
  | cons c cs ih =>
    have hstep : runWatchCalls (c :: cs) p =
        runWatchCalls cs (updateModuleProgress c.now c.moduleOrder c.delta c.completed p) := by
      simp [runWatchCalls, List.foldl_cons]
    rw [hstep, ih]
    by_cases h : (c.moduleOrder == o) = true
    · have ho : c.moduleOrder = o := by simpa using h
      rw [List.filter_cons, if_pos h, ho, watchTimeOf_update_self]
      simp
      omega
    · have h2 : (c.moduleOrder == o) = false := by simpa using h
      have hne : o ≠ c.moduleOrder := fun he => (beq_eq_false_iff_ne.mp h2) he.symm
      rw [List.filter_cons, if_neg (by simp [h2]),
        watchTimeOf_update_other c.now c.moduleOrder c.delta c.completed p o hne]

theorem runWatchCalls_sticky (calls : List WatchCall) (p : Progress)
    (h : p.isCompleted = true) :
    (runWatchCalls calls p).isCompleted = true
    ∧ (runWatchCalls calls p).completedAt = p.completedAt := by
  induction calls generalizing p with
  | nil => exact ⟨h, rfl⟩
  | cons c cs ih =>
    have hstep := updateModuleProgress_sticky c.now c.moduleOrder c.delta c.completed p h
    have hrest := ih _ hstep.1
    have hfold : runWatchCalls (c :: cs) p =
        runWatchCalls cs (updateModuleProgress c.now c.moduleOrder c.delta c.completed p) := by
      simp [runWatchCalls, List.foldl_cons]
    rw [hfold]
    exact ⟨hrest.1, hrest.2.trans hstep.2⟩

/-! ## Claim theorems: Progress aggregate -/

/-- Claim C1 (code bug): in the two-module scenario the first
recordWatch(1, 100, true) yields overallProgress = 100 and marks the
course complete, not 50 and incomplete as specified, because
updateOverallProgress divides by the number of lazily initialised
sub-records instead of the totalModules of the course; the sibling
computation Course.completeModule, which does divide by totalModules,
reports 50 for the very same event. -/
theorem c1_progress_denominator_divergence :
    (updateModuleProgress 1 1 100 true (initProgress 0)).overallProgress = 100
    ∧ (updateModuleProgress 1 1 100 true (initProgress 0)).isCompleted = true
    ∧ (updateModuleProgress 1 1 100 true (initProgress 0)).completedAt = some 1
    ∧ (updateModuleProgress 2 2 50 true
        (updateModuleProgress 1 1 100 true (initProgress 0))).overallProgress = 100
    ∧ (updateModuleProgress 2 2 50 true
        (updateModuleProgress 1 1 100 true (initProgress 0))).completedModules = 2
    ∧ (completeModule 1 7 1
        (enrollUser 0 7
          { totalModules := 2, enrolledUsers := [],
            totalEnrollments := 0, totalCompletions := 0 }).1).map
        (fun out => out.1.enrolledUsers.map (fun e => e.progress)) = some [50] := by
  decide

/-- Claim C2: recordWatch is an idempotent accumulator: each call adds its
delta to the cumulative watch time of the target module (over any sequence of
calls the watch time is the initial value plus the sum of the deltas
aimed at that module), a true completedFlag completes the module and
increments completedModules exactly when the module was not yet completed,
and repeating recordWatch(o, 0, true) on a completed module changes
neither completedModules nor the isCompleted/completedAt of the module. -/
theorem c2_recordWatch_idempotent_accumulator (p : Progress) (now o w : Nat)
    (flag : Bool) :
    watchTimeOf (updateModuleProgress now o w flag p) o = watchTimeOf p o + w
    ∧ moduleCompleted (updateModuleProgress now o w flag p) o =
        (moduleCompleted p o || flag)
    ∧ moduleCompletedAt (updateModuleProgress now o w flag p) o =
        (if moduleCompleted p o then moduleCompletedAt p o
         else if flag then some now else moduleCompletedAt p o)
    ∧ (updateModuleProgress now o w flag p).completedModules =
        (if flag && !(moduleCompleted p o) then p.completedModules + 1
         else p.completedModules)
    ∧ (∀ calls : List WatchCall,
        watchTimeOf (runWatchCalls calls p) o =
          watchTimeOf p o +
            ((calls.filter (fun c => c.moduleOrder == o)).map (fun c => c.delta)).sum)
    ∧ (∀ now2 : Nat,
        (updateModuleProgress now2 o 0 true
            (updateModuleProgress now o 0 true p)).completedModules =
          (updateModuleProgress now o 0 true p).completedModules
        ∧ moduleCompleted (updateModuleProgress now2 o 0 true
            (updateModuleProgress now o 0 true p)) o = true
        ∧ moduleCompletedAt (updateModuleProgress now2 o 0 true
            (updateModuleProgress now o 0 true p)) o =
            moduleCompletedAt (updateModuleProgress now o 0 true p) o) := by
  refine ⟨watchTimeOf_update_self now o w flag p,
    moduleCompleted_update_self now o w flag p,
    moduleCompletedAt_update_self now o w flag p,
    (updateModuleProgress_scalars now o w flag p).1,
    fun calls => watchTimeOf_runWatchCalls calls p o, ?_⟩
  intro now2
  have hq : moduleCompleted (updateModuleProgress now o 0 true p) o = true := by
    rw [moduleCompleted_update_self]
    simp
  refine ⟨?_, ?_, ?_⟩
  · rw [(updateModuleProgress_scalars now2 o 0 true _).1, hq]
    simp
  · rw [moduleCompleted_update_self, hq]
    rfl
  · rw [moduleCompletedAt_update_self, hq]
    simp

/-- Claim C3: course completion is one-way: once isCompleted is true with
completedAt stamped, neither a recordWatch call, a progress recompute, nor
any sequence of recordWatch calls ever unsets the flag or re-stamps
completedAt, even though the computed percentage may later drop below
100. -/
theorem c3_course_completion_one_way (p : Progress) (h : p.isCompleted = true) :
    (∀ now o w : Nat, ∀ flag : Bool,
      (updateModuleProgress now o w flag p).isCompleted = true
      ∧ (updateModuleProgress now o w flag p).completedAt = p.completedAt)
    ∧ (∀ now : Nat,
        (updateOverallProgress now p).isCompleted = true
        ∧ (updateOverallProgress now p).completedAt = p.completedAt)
    ∧ (∀ calls : List WatchCall,
        (runWatchCalls calls p).isCompleted = true
        ∧ (runWatchCalls calls p).completedAt = p.completedAt) :=
  ⟨fun now o w flag => updateModuleProgress_sticky now o w flag p h,
   fun now => updateOverallProgress_completed_sticky now p h,
   fun calls => runWatchCalls_sticky calls p h⟩

/-- Witness for C3: a Progress record completed by finishing its single
initialised module stays complete, with its original stamp, after a later
watch of a second module that drops the computed percentage to 50. -/
theorem c3_course_completion_one_way_witness :
    ((updateModuleProgress 2 2 10 false
        (updateModuleProgress 1 1 0 true (initProgress 0))).isCompleted = true
     ∧ (updateModuleProgress 2 2 10 false
         (updateModuleProgress 1 1 0 true (initProgress 0))).completedAt =
        (updateModuleProgress 1 1 0 true (initProgress 0)).completedAt)
    ∧ (updateModuleProgress 2 2 10 false
        (updateModuleProgress 1 1 0 true (initProgress 0))).overallProgress = 50 := by
  have h := (c3_course_completion_one_way
    (updateModuleProgress 1 1 0 true (initProgress 0)) (by decide)).1 2 2 10 false
  exact ⟨h, by decide⟩

/-- Claim C10: a recordWatch call with completedFlag = false changes only
the watch time and lastWatched of the target module plus the lastAccessed
and recomputed roll-ups of the record: it leaves the completion flag,
completion stamp, notes and bookmarks of every module unchanged, leaves
the sub-record of every other module entirely unchanged, and does not touch the
completedModules counter or the streak fields. -/
theorem c10_recordWatch_frame (p : Progress) (now o w o2 : Nat) :
    moduleCompleted (updateModuleProgress now o w false p) o2 = moduleCompleted p o2
    ∧ moduleCompletedAt (updateModuleProgress now o w false p) o2 =
        moduleCompletedAt p o2
    ∧ notesOf (updateModuleProgress now o w false p) o2 = notesOf p o2
    ∧ bookmarksOf (updateModuleProgress now o w false p) o2 = bookmarksOf p o2
    ∧ (o2 ≠ o →
        findModule (updateModuleProgress now o w false p) o2 = findModule p o2)
    ∧ (updateModuleProgress now o w false p).completedModules = p.completedModules
    ∧ watchTimeOf (updateModuleProgress now o w false p) o = watchTimeOf p o + w
    ∧ (updateModuleProgress now o w false p).lastAccessed = now
    ∧ (updateModuleProgress now o w false p).currentStreak = p.currentStreak
    ∧ (updateModuleProgress now o w false p).longestStreak = p.longestStreak
    ∧ (updateModuleProgress now o w false p).lastActivityDate = p.lastActivityDate := by
  have hs := updateModuleProgress_scalars now o w false p
  refine ⟨moduleCompleted_update_false now o w p o2,
    moduleCompletedAt_update_false now o w p o2,
    notesOf_update now o w false p o2,
    bookmarksOf_update now o w false p o2,
    fun hne => findModule_update_other now o w false p o2 hne,
    ?_,
    watchTimeOf_update_self now o w false p,
    hs.2.1, hs.2.2.1, hs.2.2.2.1, hs.2.2.2.2⟩
  rw [hs.1]
  simp

/-- Witness for C10: with a completed module 2 on record, a flag-false
watch of module 1 leaves the sub-record of module 2 and the completion counter
unchanged. -/
theorem c10_recordWatch_frame_witness :
    findModule (updateModuleProgress 3 1 7 false
        (updateModuleProgress 2 2 50 true (initProgress 0))) 2 =
      findModule (updateModuleProgress 2 2 50 true (initProgress 0)) 2
    ∧ (updateModuleProgress 3 1 7 false
        (updateModuleProgress 2 2 50 true (initProgress 0))).completedModules =
      (updateModuleProgress 2 2 50 true (initProgress 0)).completedModules := by
  have h := c10_recordWatch_frame
    (updateModuleProgress 2 2 50 true (initProgress 0)) 3 1 7 2
  exact ⟨h.2.2.2.2.1 (by decide), h.2.2.2.2.2.1⟩

/-! ## Course enrollment invariant: claim C9 -/

/-- The enrollment invariant stated by the spec for a course with N
modules: completed orders form a duplicate-free subset of {1..N} and the
cached progress percentage does not exceed 100. -/
def enrollmentOk (N : Nat) (e : Enrollment) : Prop :=
  e.completedModules.Nodup
  ∧ (∀ m ∈ e.completedModules, 1 ≤ m ∧ m ≤ N)
  ∧ e.progress ≤ 100

/-- The spec invariant over every enrollment of a course. -/
def courseInv (c : Course) : Prop :=
  ∀ e ∈ c.enrolledUsers, enrollmentOk c.totalModules e

theorem mem_updateFirstEnrollment_const (uid : Nat) (e2 : Enrollment)
    (l : List Enrollment) (x : Enrollment)
    (hx : x ∈ updateFirstEnrollment uid (fun _ => e2) l) :
    x ∈ l ∨ x = e2 := by
  induction l with
  | nil => simp [updateFirstEnrollment] at hx
  | cons e rest ih =>
    simp only [updateFirstEnrollment] at hx
    split at hx
    · rcases List.mem_cons.mp hx with h | h
      · exact Or.inr h
      · exact Or.inl (List.mem_cons_of_mem _ h)
    · rcases List.mem_cons.mp hx with h | h
      · exact Or.inl (h ▸ List.mem_cons_self _ _)
      · rcases ih h with h2 | h2
        · exact Or.inl (List.mem_cons_of_mem _ h2)
        · exact Or.inr h2

theorem nodup_length_le (l : List Nat) (N : Nat) (hnd : l.Nodup)
    (hmem : ∀ m ∈ l, 1 ≤ m ∧ m ≤ N) : l.length ≤ N := by
  have h1 : l.toFinset ⊆ Finset.Icc 1 N := by
    intro x hx
    rw [List.mem_toFinset] at hx
    exact Finset.mem_Icc.mpr (hmem x hx)
  have h2 := Finset.card_le_card h1
  rw [List.toFinset_card_of_nodup hnd] at h2
  simpa [Nat.card_Icc] using h2

theorem jsRoundDiv_le_100 (k N : Nat) (hN : 0 < N) (hk : k ≤ N) :
    jsRoundDiv (k * 100) N ≤ 100 := by
  unfold jsRoundDiv
  have h201 : 2 * (k * 100) + N ≤ 201 * N := by omega
  calc (2 * (k * 100) + N) / (2 * N) ≤ (201 * N) / (2 * N) :=
        Nat.div_le_div_right h201
    _ = 100 := Nat.div_eq_of_lt_le (by omega) (by omega)

theorem completeModule_inv (now uid o : Nat) (c : Course)
    (h1 : 1 ≤ o) (h2 : o ≤ c.totalModules) (hinv : courseInv c) :
    ∀ out, completeModule now uid o c = some out →
      courseInv out.1 ∧ out.1.totalModules = c.totalModules := by
  intro out hout
  unfold completeModule at hout
  cases hfind : c.enrolledUsers.find? (fun e => e.userId == uid) with
  | none =>
    rw [hfind] at hout
    exact absurd hout (by simp)
  | some e =>
    rw [hfind] at hout
    dsimp only at hout
    by_cases hmem : o ∈ e.completedModules
    · rw [if_pos hmem] at hout
      injection hout with hout
      subst hout
      exact ⟨hinv, rfl⟩
    · rw [if_neg hmem] at hout
      injection hout with hout
      subst hout
      have he : e ∈ c.enrolledUsers := List.mem_of_find?_eq_some hfind
      have hok := hinv e he
      have hnd : (e.completedModules ++ [o]).Nodup := by
        rw [List.nodup_append]
        exact ⟨hok.1, List.nodup_singleton o, by simpa using hmem⟩
      have hin : ∀ m ∈ e.completedModules ++ [o], 1 ≤ m ∧ m ≤ c.totalModules := by
        intro m hm
        rcases List.mem_append.mp hm with h | h
        · exact hok.2.1 m h
        · have : m = o := by simpa using h
          subst this
          exact ⟨h1, h2⟩
      have hlen : e.completedModules.length + 1 ≤ c.totalModules := by
        have := nodup_length_le (e.completedModules ++ [o]) c.totalModules hnd hin
        simpa using this
      refine ⟨?_, rfl⟩
      intro x hx
      rcases mem_updateFirstEnrollment_const uid _ c.enrolledUsers x hx with hold | hnew
      · exact hinv x hold
      · subst hnew
        exact ⟨hnd, hin,
          jsRoundDiv_le_100 (e.completedModules.length + 1) c.totalModules
            (by omega) hlen⟩

theorem runCompleteCalls_inv (calls : List CompleteCall) (c : Course)
    (hinv : courseInv c)
    (hcalls : ∀ call ∈ calls, 1 ≤ call.moduleOrder ∧ call.moduleOrder ≤ c.totalModules) :
    courseInv (runCompleteCalls calls c)
    ∧ (runCompleteCalls calls c).totalModules = c.totalModules := by
  induction calls generalizing c with
  | nil => exact ⟨hinv, rfl⟩
  | cons call cs ih =>
    cases hcm : completeModule call.now call.userId call.moduleOrder c with
    | none =>
      have hfold : runCompleteCalls (call :: cs) c = runCompleteCalls cs c := by
        simp [runCompleteCalls, List.foldl_cons, hcm]
      rw [hfold]
      exact ih c hinv (fun x hx => hcalls x (List.mem_cons_of_mem _ hx))
    | some out =>
      have hfold : runCompleteCalls (call :: cs) c = runCompleteCalls cs out.1 := by
        simp [runCompleteCalls, List.foldl_cons, hcm]
      rw [hfold]
      have hb := hcalls call (List.mem_cons_self _ _)
      have hstep := completeModule_inv call.now call.userId call.moduleOrder c
        hb.1 hb.2 hinv out hcm
      have hrest := ih out.1 hstep.1
        (fun x hx => hstep.2 ▸ hcalls x (List.mem_cons_of_mem _ hx))
      exact ⟨hrest.1, hrest.2.trans hstep.2⟩

/-- Claim C9 counterexample: on a 2-module course, completeModule accepts
the out-of-range order 3 (so completedModuleOrders is not a subset of
{1..totalModules}), and after completing orders 1, 2 and 3 the cached
progress is 150, exceeding 100. -/
theorem c9_completedModules_range_counterexample :
    ((completeModule 1 7 3 (enrollUser 0 7 ⟨2, [], 0, 0⟩).1).map
        (fun out => out.1.enrolledUsers.map (fun e => e.completedModules))) =
      some [[3]]
    ∧ (runCompleteCalls [⟨1, 7, 1⟩, ⟨2, 7, 2⟩, ⟨3, 7, 3⟩]
          (enrollUser 0 7 ⟨2, [], 0, 0⟩).1).enrolledUsers.map
        (fun e => (e.completedModules, e.progress)) = [([1, 2, 3], 150)]
    ∧ ¬ (3 ≤ 2) ∧ 100 < 150 := by
  decide

/-- Claim C9 (amended): completeModule appends any not-yet-present order
without validating it against 1..totalModules, so the spec invariant
completedModuleOrders ⊆ {1..totalModules} (with no duplicates and
progress at most 100) is preserved exactly under the precondition that
every call passes an order inside that range, both for a single call and
over every call sequence. -/
theorem c9_enrollment_invariant_amended (c : Course) (now uid o : Nat)
    (h1 : 1 ≤ o) (h2 : o ≤ c.totalModules) (hinv : courseInv c) :
    (∀ out, completeModule now uid o c = some out → courseInv out.1)
    ∧ (∀ calls : List CompleteCall,
        (∀ call ∈ calls, 1 ≤ call.moduleOrder ∧ call.moduleOrder ≤ c.totalModules) →
        courseInv (runCompleteCalls calls c)) :=
  ⟨fun out hout => (completeModule_inv now uid o c h1 h2 hinv out hout).1,
   fun calls hcalls => (runCompleteCalls_inv calls c hinv hcalls).1⟩

/-- Witness for the amended C9: completing the in-range orders 1 and 2 on
a 2-module course preserves the enrollment invariant. -/
theorem c9_enrollment_invariant_amended_witness :
    courseInv (runCompleteCalls [⟨1, 7, 1⟩, ⟨2, 7, 2⟩]
      ⟨2, [⟨7, 0, [], 0, 0⟩], 1, 0⟩) := by
  have hinv : courseInv ⟨2, [⟨7, 0, [], 0, 0⟩], 1, 0⟩ := by
    intro e he
    rw [List.mem_singleton] at he
    subst he
    exact ⟨by decide, by simp, by decide⟩
  have hcalls : ∀ call ∈ ([⟨1, 7, 1⟩, ⟨2, 7, 2⟩] : List CompleteCall),
      1 ≤ call.moduleOrder ∧
        call.moduleOrder ≤ (⟨2, [⟨7, 0, [], 0, 0⟩], 1, 0⟩ : Course).totalModules := by
    intro call hc
    rcases List.mem_cons.mp hc with rfl | hc
    · exact ⟨by decide, by decide⟩
    · rcases List.mem_singleton.mp hc with rfl
      exact ⟨by decide, by decide⟩
  exact (c9_enrollment_invariant_amended ⟨2, [⟨7, 0, [], 0, 0⟩], 1, 0⟩ 1 7 1
    (by decide) (by decide) hinv).2 [⟨1, 7, 1⟩, ⟨2, 7, 2⟩] hcalls

/-! ## Playlist paging lemmas and claim C8 -/

theorem processPage_length (d : List String → List VideoDetail)
    (page : List PlaylistItem) : (processPage d page).length = page.length := by
  simp [processPage]

theorem processPage_positions (d : List String → List VideoDetail)
    (page : List PlaylistItem) :
    (processPage d page).map (fun v => v.position) = page.map (fun i => i.position) := by
  simp only [processPage, List.map_map]
  rfl

theorem fetchPages_reach (d : List String → List VideoDetail) (maxR : Nat) :
    ∀ (pages : List (List PlaylistItem)) (acc : List Video),
      pages ≠ [] → acc.length < maxR →
      maxR ≤ acc.length + (pages.map List.length).sum →
      (fetchPages d maxR pages acc).1 =
        (acc ++ (pages.map (processPage d)).flatten).take maxR := by
  intro pages
  induction pages with
  | nil => intro acc h; exact absurd rfl h
  | cons page rest ih =>
    intro acc _ hacc hreach
    simp only [fetchPages]
    by_cases h : maxR ≤ (acc ++ processPage d page).length
    · rw [if_pos h]
      dsimp only
      rw [List.map_cons, List.flatten_cons, ← List.append_assoc,
        List.take_append_of_le_length h]
    · rw [if_neg h]
      cases rest with
      | nil =>
        exfalso
        apply h
        simp only [List.length_append, processPage_length]
        simp only [List.map_cons, List.map_nil, List.sum_cons, List.sum_nil] at hreach
        omega
      | cons r rs =>
        rw [if_neg (by simp)]
        dsimp only
        rw [ih (acc ++ processPage d page) (by simp)
          (by simp only [List.length_append, processPage_length] at h ⊢; omega)
          (by
            simp only [List.length_append, processPage_length, List.map_cons,
              List.sum_cons] at hreach ⊢
            omega)]
        simp [List.flatten_cons, List.append_assoc]

theorem fetchPages_count (d : List String → List VideoDetail) (maxR : Nat) :
    ∀ (pages : List (List PlaylistItem)) (acc : List Video),
      pages ≠ [] → acc.length < maxR →
      1 ≤ (fetchPages d maxR pages acc).2
      ∧ (fetchPages d maxR pages acc).2 ≤ pages.length
      ∧ acc.length +
          ((pages.take ((fetchPages d maxR pages acc).2 - 1)).map List.length).sum
        < maxR := by
  intro pages
  induction pages with
  | nil => intro acc h; exact absurd rfl h
  | cons page rest ih =>
    intro acc _ hacc
    simp only [fetchPages]
    by_cases h : maxR ≤ (acc ++ processPage d page).length
    · rw [if_pos h]
      dsimp only
      refine ⟨le_refl 1, by simp only [List.length_cons]; omega, ?_⟩
      simpa using hacc
    · rw [if_neg h]
      cases rest with
      | nil =>
        rw [if_pos (by simp)]
        dsimp only
        exact ⟨le_refl 1, by simp, by simpa using hacc⟩
      | cons r rs =>
        rw [if_neg (by simp)]
        dsimp only
        have hacc2 : (acc ++ processPage d page).length < maxR := by omega
        obtain ⟨hr1, hr2, hr3⟩ := ih (acc ++ processPage d page) (by simp) hacc2
        refine ⟨by omega, ?_, ?_⟩
        · simp only [List.length_cons] at hr2 ⊢
          omega
        · have h1 : (fetchPages d maxR (r :: rs) (acc ++ processPage d page)).2 + 1 - 1 =
              (fetchPages d maxR (r :: rs) (acc ++ processPage d page)).2 := by omega
          rw [h1]
          obtain ⟨m, hm⟩ : ∃ m,
              (fetchPages d maxR (r :: rs) (acc ++ processPage d page)).2 = m + 1 :=
            ⟨(fetchPages d maxR (r :: rs) (acc ++ processPage d page)).2 - 1, by omega⟩
          rw [hm, List.take_succ_cons]
          rw [hm] at hr3
          simp only [Nat.add_sub_cancel] at hr3
          simp only [List.length_append, processPage_length, List.map_cons,
            List.sum_cons] at hr3 ⊢
          omega

/-- Claim C8: when the catalog holds more than maxResults items,
getPlaylistVideos returns exactly the first maxResults combined
descriptors (truncating mid-page), so the result has length maxResults
and, when the catalog enumerates positions 1..total in order, the
returned positions are exactly 1..maxResults; moreover the loop fetches
only pages it needs: every fetched page except the last still left the
accumulated count short of maxResults. -/
theorem c8_fetchVideos_truncation (detailsOf : List String → List VideoDetail)
    (pages : List (List PlaylistItem)) (maxResults : Nat)
    (hpos : 0 < maxResults)
    (htotal : maxResults < (pages.map List.length).sum) :
    getPlaylistVideos detailsOf pages maxResults =
        ((pages.map (processPage detailsOf)).flatten).take maxResults
    ∧ (getPlaylistVideos detailsOf pages maxResults).length = maxResults
    ∧ (pages.flatten.map (fun i => i.position) =
          List.range' 1 pages.flatten.length →
        (getPlaylistVideos detailsOf pages maxResults).map (fun v => v.position) =
          List.range' 1 maxResults)
    ∧ 1 ≤ pagesFetched detailsOf pages maxResults
    ∧ pagesFetched detailsOf pages maxResults ≤ pages.length
    ∧ ((pages.take (pagesFetched detailsOf pages maxResults - 1)).map List.length).sum
        < maxResults := by
  have hne : pages ≠ [] := by
    intro h
    subst h
    simp at htotal
  have hmain := fetchPages_reach detailsOf maxResults pages []
    hne (by simpa using hpos) (by simpa using le_of_lt htotal)
  have hcnt := fetchPages_count detailsOf maxResults pages []
    hne (by simpa using hpos)
  have h1 : getPlaylistVideos detailsOf pages maxResults =
      ((pages.map (processPage detailsOf)).flatten).take maxResults := by
    unfold getPlaylistVideos
    rw [hmain]
    simp
  have hflat : ((pages.map (processPage detailsOf)).flatten).length =
      (pages.map List.length).sum := by
    rw [List.length_flatten, List.map_map]
    congr 1
    apply List.map_congr_left
    intro page _
    exact processPage_length detailsOf page
  have htot2 : maxResults ≤ pages.flatten.length := by
    rw [List.length_flatten]
    exact le_of_lt htotal
  refine ⟨h1, ?_, ?_, by simpa [pagesFetched] using hcnt.1,
    by simpa [pagesFetched] using hcnt.2.1,
    by simpa [pagesFetched] using hcnt.2.2⟩
  · rw [h1, List.length_take, hflat]
    exact Nat.min_eq_left (le_of_lt htotal)
  · intro hposs
    rw [h1]
    have hmapflat : ((pages.map (processPage detailsOf)).flatten).map (fun v => v.position) =
        pages.flatten.map (fun i => i.position) := by
      rw [List.map_flatten, List.map_flatten, List.map_map]
      congr 1
      apply List.map_congr_left
      intro page _
      exact processPage_positions detailsOf page
    rw [List.map_take, hmapflat, hposs]
    have hsplit : List.range' 1 pages.flatten.length =
        List.range' 1 maxResults ++
          List.range' (1 + 1 * maxResults) (pages.flatten.length - maxResults) := by
      rw [List.range'_append]
      congr 1
      omega
    rw [hsplit, List.take_append_of_le_length (by rw [List.length_range'])]
    calc List.take maxResults (List.range' 1 maxResults)
        = List.take (List.range' 1 maxResults).length (List.range' 1 maxResults) := by
          rw [List.length_range']
      _ = List.range' 1 maxResults := List.take_length _

/-- A concrete playlist item, used by the C8 witness catalog. -/
def c8mkItem (n : Nat) : PlaylistItem :=
  { videoId := Nat.repr n, title := Nat.repr n, position := n }

/-- A 120-item catalog served as pages of 50, 50 and 20 items. -/
def c8pages : List (List PlaylistItem) :=
  [(List.range' 1 50).map c8mkItem, (List.range' 51 50).map c8mkItem,
   (List.range' 101 20).map c8mkItem]

/-- Witness for C8: the 120-item playlist with maxResults = 50 yields
exactly 50 descriptors with positions 1..50, after a single page fetch. -/
theorem c8_fetchVideos_truncation_witness :
    (getPlaylistVideos (fun _ => ([] : List VideoDetail)) c8pages 50).length = 50
    ∧ (getPlaylistVideos (fun _ => ([] : List VideoDetail)) c8pages 50).map
        (fun v => v.position) = List.range' 1 50
    ∧ pagesFetched (fun _ => ([] : List VideoDetail)) c8pages 50 = 1 := by
  have h := c8_fetchVideos_truncation (fun _ => ([] : List VideoDetail)) c8pages 50
    (by decide) (by decide)
  exact ⟨h.2.1, h.2.2.1 (by decide), by decide⟩

end PlayLMS
